import Mathlib

/-!
Verification of the move-planning and reversible-history engine of
`organize_downloads.py` (download-organizer).

The Python source is shallowly embedded: pure helpers become Lean
functions over `String` / `List`; the persisted history file becomes an
explicit `List Batch` value threaded through each operation (the script
re-reads and fully rewrites the file on every mutation, so the returned
list is exactly the persisted state); the filesystem becomes a finite
map `String → Option Nat` from paths to abstract file contents, or a
`List String` of existing paths where only existence is consulted.
Timestamps are integer seconds.
-/

namespace Organizer

/-! ## Classifier (`get_category`, `get_smart_subcategory`) -/

/-- Lower-casing of a string, character by character (Python's
`str.lower()`; the table entries and keywords this program compares
against are ASCII, where the two agree). -/
def strLower (s : String) : String := ⟨s.data.map Char.toLower⟩

/-- Does `l₂` start with `l₁`? -/
def charsBeginWith : List Char → List Char → Bool
  | [], _ => true
  | _ :: _, [] => false
  | a :: as, b :: bs => a = b && charsBeginWith as bs

/-- Contiguous-substring test on character lists. -/
def charsContain : List Char → List Char → Bool
  | [], needle => needle.isEmpty
  | hay@(_ :: rest), needle =>
      charsBeginWith needle hay || charsContain rest needle

/-- Final path component, as `pathlib` computes `Path(filename).name`:
trailing separators are dropped, then everything after the last `/` is
the name. -/
def pyNameChars (cs : List Char) : List Char :=
  let rev := cs.reverse.dropWhile (· = '/')
  (rev.takeWhile (· ≠ '/')).reverse

/-- `Path(filename).suffix`: the name's substring from its last dot,
provided that dot is neither the first nor the last character of the
name; otherwise the empty string. -/
def pySuffix (filename : String) : String :=
  let name := pyNameChars filename.data
  match (name.reverse.findIdx? (· = '.')) with
  | some j =>
      let i := name.length - 1 - j
      if 0 < i ∧ i < name.length - 1 then ⟨name.drop i⟩ else ""
  | none => ""

/-- The `CATEGORIES` table, in declaration order. -/
def CATEGORIES : List (String × List String) :=
  [ ("PDF文档", [".pdf"]),
    ("Word文档", [".doc", ".docx", ".rtf", ".odt"]),
    ("表格", [".xlsx", ".xls"]),
    ("演示文稿", [".pptx", ".ppt"]),
    ("文本文件", [".txt"]),
    ("图片", [".jpg", ".jpeg", ".png", ".gif", ".bmp", ".webp", ".heic",
            ".svg", ".tiff"]),
    ("安装包", [".dmg", ".pkg", ".app", ".exe", ".msi", ".zip", ".rar",
            ".7z", ".tar", ".gz", ".bz2"]),
    ("视频", [".mp4", ".mov", ".avi", ".mkv", ".wmv", ".flv"]),
    ("音频", [".mp3", ".wav", ".flac", ".aac", ".m4a"]),
    ("代码", [".py", ".js", ".ts", ".html", ".css", ".json", ".xml",
            ".yaml", ".yml"]),
    ("数据分析", [".do", ".csv", ".dta", ".sav", ".rdata", ".sqlite", ".db"]) ]

/-- `get_category`: lower-cased suffix looked up in the first category
whose extension list contains it; no match yields "其他" ("other"). -/
def get_category (filename : String) : String :=
  match CATEGORIES.find?
      (fun ce => decide (strLower (pySuffix filename) ∈ ce.2)) with
  | some ce => ce.1
  | none => "其他"

/-- Python's substring test `needle in hay`. -/
def strContains (hay needle : String) : Bool :=
  charsContain hay.data needle.data

/-- The `SMART_RULES` table, in declaration order. -/
def SMART_RULES : List (String × List (List String × String)) :=
  [ ("PDF文档",
      [ (["论文", "paper", "research", "study", "journal", "review"], "论文"),
        (["arxiv", "ieee", "acm", "springer", "elsevier", "s2.0-", "1-s2.0"], "论文"),
        (["摘要", "abstract", "introduction", "conclusion"], "论文"),
        (["发票", "invoice", "receipt", "账单", "bill"], "发票"),
        (["合同", "contract", "agreement", "协议"], "合同"),
        (["简历", "resume", "cv", "curriculum"], "简历"),
        (["报告", "report", "汇报", "总结"], "报告"),
        (["手册", "manual", "guide", "教程", "tutorial"], "手册") ]),
    ("Word文档",
      [ (["论文", "paper", "research", "thesis"], "论文"),
        (["合同", "contract", "agreement", "协议"], "合同"),
        (["简历", "resume", "cv", "curriculum"], "简历"),
        (["报告", "report", "汇报", "总结"], "报告") ]),
    ("图片",
      [ (["screenshot", "截图", "屏幕", "screen"], "截图"),
        (["photo", "img_", "dsc_", "dcim", "9b6b"], "照片"),
        (["design", "设计", "ui", "mockup"], "设计") ]) ]

/-- The inner loop of `get_smart_subcategory` fires on a rule exactly
when some keyword of the rule, lower-cased, occurs in the lower-cased
filename. -/
def ruleHit (filenameLower : String) (rule : List String × String) : Bool :=
  rule.1.any (fun kw => strContains filenameLower (strLower kw))

/-- The rule scan of `get_smart_subcategory`: first rule (in declaration
order) with a matching keyword wins; no match yields `none`. -/
def scanRules (filenameLower : String) :
    List (List String × String) → Option String
  | [] => none
  | rule :: rest =>
      if ruleHit filenameLower rule then some rule.2
      else scanRules filenameLower rest

/-- `get_smart_subcategory`: `None` when the category has no rule list,
otherwise the rule scan over the category's rules. -/
def get_smart_subcategory (filename category : String) : Option String :=
  match SMART_RULES.find? (fun e => decide (e.1 = category)) with
  | none => none
  | some e => scanRules (strLower filename) e.2

example : get_category "Report.PDF" = "PDF文档" := by decide
example : get_category "noext" = "其他" := by decide
example : get_category "archive.tar.gz" = "安装包" := by decide
example : get_smart_subcategory "My_Paper_v2.pdf" "PDF文档" = some "论文" := by decide
example : get_smart_subcategory "random.pdf" "PDF文档" = none := by decide
example : get_smart_subcategory "paper.txt" "文本文件" = none := by decide

/-! ## PathPlanner (`get_unique_path`)

The filesystem, as far as `get_unique_path` consults it, is the list of
paths that currently exist.  `dest_path` arrives already split into its
parent folder, stem and suffix, exactly the decomposition the source
performs on its first lines; `parent / name` is string concatenation
with a separator. -/

/-- `parent / name` path join. -/
def joinPath (parent name : String) : String := parent ++ "/" ++ name

/-- The collision-numbering candidate tried at `counter`:
`f"\x7bbase\x7d_\x7bcounter\x7d\x7bext\x7d"` under the parent. -/
def numberedCand (parent base ext : String) (counter : Nat) : String :=
  joinPath parent (base ++ "_" ++ toString counter ++ ext)

/-- The `while True` loop of `get_unique_path`: try `base_counter ext`,
step `counter` while the candidate exists.  The loop in the source is
unbounded; `fuel` is a termination bound only, and every caller passes
`fs.length + 1`, more steps than the loop can ever consume before
finding a free candidate. -/
def findUniqueName (fs : List String) (parent base ext : String) :
    Nat → Nat → String
  | 0, counter => numberedCand parent base ext counter
  | fuel + 1, counter =>
      let newPath := numberedCand parent base ext counter
      if newPath ∈ fs then findUniqueName fs parent base ext fuel (counter + 1)
      else newPath

/-- `get_unique_path`: the bare destination if nothing exists there,
otherwise the first free numbered candidate starting at `_1`. -/
def get_unique_path (fs : List String) (parent base ext : String) : String :=
  let dest := joinPath parent (base ++ ext)
  if dest ∈ fs then findUniqueName fs parent base ext (fs.length + 1) 1
  else dest

/-- The destination chosen for file `k` of a same-named group when each
move lands on disk before the next file is planned: bare name for
`k = 0`, `_k` suffix afterwards. -/
def plannedName (parent base ext : String) (k : Nat) : String :=
  if k = 0 then joinPath parent (base ++ ext) else numberedCand parent base ext k

/-- One `calculate_moves` planning pass: every file's destination is
resolved by `get_unique_path` against the same live filesystem; nothing
records the destinations already handed out during the pass. -/
def plan_pass (fs : List String) (files : List (String × String × String)) :
    List String :=
  files.map (fun f => get_unique_path fs f.1 f.2.1 f.2.2)

/-- The watcher flow (`_process_file`): plan one file, move it (its
destination now exists), then plan the next. -/
def plan_exec (fs : List String) : List (String × String × String) → List String
  | [] => []
  | f :: rest =>
      let d := get_unique_path fs f.1 f.2.1 f.2.2
      d :: plan_exec (d :: fs) rest

example : plan_exec [] [("T", "invoice", ".pdf"), ("T", "invoice", ".pdf")] =
    ["T/invoice.pdf", "T/invoice_1.pdf"] := by decide
example : plan_pass [] [("T", "invoice", ".pdf"), ("T", "invoice", ".pdf")] =
    ["T/invoice.pdf", "T/invoice.pdf"] := by decide

/-! ## HistoryStore

A `Batch` is one entry of the persisted JSON list; the file always
carries the three keys this program writes.  `load_history` /
`save_history` are the identity in the model: each operation takes the
persisted history and returns the history it writes back (an operation
that returns its input unchanged performed no write). -/

/-- One recorded move: `{"source": ..., "dest": ...}`. -/
structure MoveRecord where
  source : String
  dest : String
  deriving DecidableEq, Repr

/-- One history batch: `{"batch_id": ..., "timestamp": ..., "moves": ...}`. -/
structure Batch where
  batch_id : Nat
  timestamp : Int
  moves : List MoveRecord
  deriving DecidableEq, Repr

/-- `history[-1]["batch_id"]` with the Python default `0` for an empty
history, as `record_move` computes it. -/
def lastBatchId (h : List Batch) : Nat :=
  match h.getLast? with
  | some b => b.batch_id
  | none => 0

/-- Python's `timedelta.seconds` attribute for an elapsed time of `d`
whole seconds: the normalized within-day remainder `d mod 86400`,
always in `[0, 86400)` — not the total elapsed seconds. -/
def timedeltaSeconds (d : Int) : Int := d % 86400

/-- `record_move(source, dest)` at wall-clock time `now`: append to the
last batch when `(now - timestamp).seconds < 60`, otherwise start a new
batch with `batch_id + 1`; an empty history starts batch `0 + 1`. -/
def record_move (src dst : String) (now : Int) : List Batch → List Batch
  | [] => [⟨1, now, [⟨src, dst⟩]⟩]
  | [b] =>
      if timedeltaSeconds (now - b.timestamp) < 60 then
        [{ b with moves := b.moves ++ [⟨src, dst⟩] }]
      else
        [b, ⟨b.batch_id + 1, now, [⟨src, dst⟩]⟩]
  | b :: rest => b :: record_move src dst now rest

/-- `start_new_batch()`: unconditionally append an empty batch with the
next id (`1` on an empty history). -/
def start_new_batch (h : List Batch) (now : Int) : List Batch :=
  h ++ [⟨lastBatchId h + 1, now, []⟩]

/-- `add_to_batch(source, dest)`: append the record to the last batch's
moves; on an empty history do nothing (and write nothing). -/
def add_to_batch (src dst : String) : List Batch → List Batch
  | [] => []
  | [b] => [{ b with moves := b.moves ++ [⟨src, dst⟩] }]
  | b :: rest => b :: add_to_batch src dst rest

/-! ## Filesystem and MoveExecutor -/

/-- The filesystem as a map from paths to abstract file contents. -/
abbrev Fs : Type := String → Option Nat

/-- `shutil.move(src, dest)` on a same-volume rename: `dest` now holds
what `src` held, `src` is gone. -/
def moveFile (fs : Fs) (src dst : String) : Fs :=
  fun p => if p = dst then fs src else if p = src then none else fs p

/-- One iteration of the execution loop of `organize_files`: the move
succeeds when the source exists (the per-file `except` swallows the
failure otherwise and records nothing). -/
def execMove (st : Fs × List Batch) (m : MoveRecord) : Fs × List Batch :=
  match st.1 m.source with
  | some _ => (moveFile st.1 m.source m.dest, add_to_batch m.source m.dest st.2)
  | none => st

/-- The execute branch of `organize_files` (dry_run false), applied to
the planned moves: `start_new_batch()` first, then move and
`add_to_batch` each file, tolerating per-file failure. -/
def organize_files_execute (fs : Fs) (h : List Batch) (now : Int)
    (moves : List MoveRecord) : Fs × List Batch :=
  moves.foldl execMove (fs, start_new_batch h now)

/-! ## UndoEngine (`undo_last_batch`) -/

/-- The `for batch in reversed(history)` scan: the most recent batch
with a non-empty move list. -/
def last_nonempty_batch : List Batch → Option Batch
  | [] => none
  | b :: rest =>
      match last_nonempty_batch rest with
      | some lb => some lb
      | none => if b.moves.isEmpty then none else some b

/-- One undo iteration: move the recorded destination back to the
recorded source when the destination still exists, otherwise report and
skip. -/
def undoMove (fs : Fs) (m : MoveRecord) : Fs :=
  match fs m.dest with
  | some _ => moveFile fs m.dest m.source
  | none => fs

/-- `undo_last_batch()`: nothing-to-undo (no write, no move) when no
non-empty batch exists; otherwise restore the records of the selected
batch in forward order, then drop every batch with its id from the
history and persist the rest.  (The subsequent empty-folder pruning
touches directories only, which the file map does not represent.) -/
def undo_last_batch (fs : Fs) (h : List Batch) : Fs × List Batch :=
  match last_nonempty_batch h with
  | none => (fs, h)
  | some lb =>
      (lb.moves.foldl undoMove fs,
       h.filter (fun b => b.batch_id ≠ lb.batch_id))

/-! ## Scanner exclusion (`is_in_organized_folder`) -/

/-- The already-organized folder names: the category names plus "其他". -/
def ORGANIZED_FOLDER_NAMES : List String := CATEGORIES.map (·.1) ++ ["其他"]

/-- `Path.relative_to`: strip `root` as a leading component sequence,
`none` (Python: `ValueError`) when `root` is not a prefix. -/
def relative_to (fp root : List String) : Option (List String) :=
  if root.isPrefixOf fp then some (fp.drop root.length) else none

/-- `is_in_organized_folder(file_path, target_root)` over paths given as
component lists: true iff the path is under the root, more than one
component below it, and its first component below the root is a known
classification-folder name. -/
def is_in_organized_folder (fp root : List String) : Bool :=
  match relative_to fp root with
  | some rel => decide (rel.length > 1) && decide (rel.headD "" ∈ ORGANIZED_FOLDER_NAMES)
  | none => false

example : is_in_organized_folder ["u", "Documents", "PDF文档", "a.pdf"]
    ["u", "Documents"] = true := by decide
example : is_in_organized_folder ["u", "Documents", "PDF文档"]
    ["u", "Documents"] = false := by decide
example : record_move "s" "d" 86400 [⟨1, 0, []⟩] = [⟨1, 0, [⟨"s", "d"⟩]⟩] := by decide
example : record_move "s" "d" 61 [⟨1, 0, []⟩] =
    [⟨1, 0, []⟩, ⟨2, 61, [⟨"s", "d"⟩]⟩] := by decide
example : record_move "s" "d" 59 [⟨1, 0, []⟩] = [⟨1, 0, [⟨"s", "d"⟩]⟩] := by decide

/-! ## Helper lemmas -/

lemma isPrefixOf_append_self : ∀ (l t : List String), l.isPrefixOf (l ++ t) = true
  | [], _ => by simp [List.isPrefixOf]
  | a :: as, t => by
      simp only [List.cons_append, List.isPrefixOf, beq_self_eq_true, Bool.true_and]
      exact isPrefixOf_append_self as t

lemma add_to_batch_cons_of_ne_nil (s d : String) (x : Batch) {l : List Batch}
    (h : l ≠ []) : add_to_batch s d (x :: l) = x :: add_to_batch s d l := by
  cases l with
  | nil => exact absurd rfl h
  | cons y ys => rfl

lemma add_to_batch_concat (s d : String) :
    ∀ (hp : List Batch) (b : Batch),
      add_to_batch s d (hp ++ [b]) = hp ++ [{ b with moves := b.moves ++ [⟨s, d⟩] }]
  | [], _ => rfl
  | x :: hp, b => by
      rw [List.cons_append, add_to_batch_cons_of_ne_nil s d x (by simp),
        add_to_batch_concat s d hp b, List.cons_append]

lemma lastBatchId_concat (l : List Batch) (b : Batch) :
    lastBatchId (l ++ [b]) = b.batch_id := by
  unfold lastBatchId
  rw [List.getLast?_concat]

/-- After the execution loop runs over a history ending in batch `b`,
the history still ends in a single batch carrying `b`'s id (only its
move list may have grown), and the front is untouched. -/
lemma exec_keeps_last_id :
    ∀ (ms : List MoveRecord) (fs : Fs) (hp : List Batch) (b : Batch),
      ∃ b', (ms.foldl execMove (fs, hp ++ [b])).2 = hp ++ [b'] ∧
        b'.batch_id = b.batch_id
  | [], _, _, b => ⟨b, rfl, rfl⟩
  | m :: ms, fs, hp, b => by
      rw [List.foldl_cons]
      cases hsrc : fs m.source with
      | none =>
          have hstep : execMove (fs, hp ++ [b]) m = (fs, hp ++ [b]) := by
            simp only [execMove, hsrc]
          rw [hstep]
          exact exec_keeps_last_id ms fs hp b
      | some v =>
          have hstep : execMove (fs, hp ++ [b]) m =
              (moveFile fs m.source m.dest,
                hp ++ [{ b with moves := b.moves ++ [⟨m.source, m.dest⟩] }]) := by
            simp only [execMove, hsrc, add_to_batch_concat]
          rw [hstep]
          exact exec_keeps_last_id ms (moveFile fs m.source m.dest) hp _

lemma last_nonempty_batch_eq_none {h : List Batch}
    (hall : ∀ b ∈ h, b.moves = []) : last_nonempty_batch h = none := by
  induction h with
  | nil => rfl
  | cons b rest ih =>
      unfold last_nonempty_batch
      rw [ih (fun x hx => hall x (List.mem_cons_of_mem b hx))]
      have : b.moves = [] := hall b (List.mem_cons_self b rest)
      simp [this]

/-! ## Claim theorems -/

/-- C1.  `record_move` is claimed to start a fresh batch whenever 60 or
more seconds have elapsed since the latest batch's timestamp.  The code
compares `timedelta.seconds` — the within-day remainder — against 60,
so at exactly one day (86400 s) after batch 1's timestamp the move is
still appended to batch 1 instead of opening batch 2, contradicting the
source's own "同一批次（60秒内）" (same batch, within 60 seconds) comment. -/
theorem record_move_day_wrap_bug :
    record_move "src" "dst" 86400 [⟨1, 0, []⟩] = [⟨1, 0, [⟨"src", "dst"⟩]⟩] ∧
    record_move "src" "dst" 86400 [⟨1, 0, []⟩] ≠
      [⟨1, 0, []⟩, ⟨2, 86400, [⟨"src", "dst"⟩]⟩] := by
  decide

/-- C3 (counterexample).  Two execute-mode runs 10 time units apart
(well under 60): the second run's move is recorded in a fresh batch 2,
not appended to batch 1 as the claim states. -/
theorem execute_runs_never_share_batch :
    ((10 : Int) - 0 < 60) ∧
    (organize_files_execute
      (organize_files_execute (fun p => if p = "a" then some 0 else none)
        [] 0 [⟨"a", "b"⟩]).1
      (organize_files_execute (fun p => if p = "a" then some 0 else none)
        [] 0 [⟨"a", "b"⟩]).2
      10 [⟨"b", "c"⟩]).2 =
      [⟨1, 0, [⟨"a", "b"⟩]⟩, ⟨2, 10, [⟨"b", "c"⟩]⟩] := by
  constructor
  · decide
  · rfl

/-- C3 (amended).  Every execute-mode run of `organize_files` starts
its own batch: the first run's batch carries id `lastBatchId h + 1` and
a second run's batch carries id `lastBatchId h + 2`, for every pair of
run times — in particular also when the runs are less than 60 time
units apart.  The 60-second window never merges execution runs; it
applies only to watcher-mode `record_move`. -/
theorem organize_files_execute_new_batch_each_run (fs : Fs) (h : List Batch)
    (t1 t2 : Int) (ms1 ms2 : List MoveRecord) :
    lastBatchId (organize_files_execute fs h t1 ms1).2 = lastBatchId h + 1 ∧
    lastBatchId (organize_files_execute
      (organize_files_execute fs h t1 ms1).1
      (organize_files_execute fs h t1 ms1).2 t2 ms2).2 = lastBatchId h + 2 := by
  have run : ∀ (f : Fs) (hist : List Batch) (t : Int) (ms : List MoveRecord),
      lastBatchId (organize_files_execute f hist t ms).2 = lastBatchId hist + 1 := by
    intro f hist t ms
    unfold organize_files_execute start_new_batch
    obtain ⟨b', hb', hid⟩ :=
      exec_keeps_last_id ms f hist ⟨lastBatchId hist + 1, t, []⟩
    rw [hb', lastBatchId_concat, hid]
  refine ⟨run fs h t1 ms1, ?_⟩
  rw [run _ _ t2 ms2, run fs h t1 ms1]

/-- C5.  When the most recent non-empty batch holds records whose
destination no longer exists (they fail to restore), `undo_last_batch`
still removes every batch with that id from the history and persists
the remainder: no batch with the undone id survives, so the unrestored
records cannot be retried. -/
theorem undo_discards_failed_records (fs : Fs) (h : List Batch) (lb : Batch)
    (hsel : last_nonempty_batch h = some lb)
    (hfail : ∃ m ∈ lb.moves, fs m.dest = none) :
    (undo_last_batch fs h).2 = h.filter (fun b => b.batch_id ≠ lb.batch_id) ∧
    ∀ b ∈ (undo_last_batch fs h).2, b.batch_id ≠ lb.batch_id := by
  unfold undo_last_batch
  rw [hsel]
  refine ⟨rfl, ?_⟩
  intro b hb
  have := List.of_mem_filter hb
  simpa using this

theorem undo_discards_failed_records_witness :
    last_nonempty_batch [⟨1, 0, [⟨"s", "d"⟩]⟩] = some ⟨1, 0, [⟨"s", "d"⟩]⟩ ∧
    (∃ m ∈ (⟨1, 0, [⟨"s", "d"⟩]⟩ : Batch).moves,
        (fun _ => (none : Option Nat)) m.dest = none) ∧
    ((undo_last_batch (fun _ => none) [⟨1, 0, [⟨"s", "d"⟩]⟩]).2 =
        ([⟨1, 0, [⟨"s", "d"⟩]⟩] : List Batch).filter (fun b => b.batch_id ≠ 1) ∧
      ∀ b ∈ (undo_last_batch (fun _ => none) [⟨1, 0, [⟨"s", "d"⟩]⟩]).2,
        b.batch_id ≠ 1) :=
  ⟨by decide, ⟨⟨"s", "d"⟩, by decide, rfl⟩,
    undo_discards_failed_records (fun _ => none) _ ⟨1, 0, [⟨"s", "d"⟩]⟩
      (by decide) ⟨⟨"s", "d"⟩, by decide, rfl⟩⟩

/-- C8.  On a history that is empty or holds only batches with empty
move lists, `undo_last_batch` takes the nothing-to-undo path: the
filesystem and the persisted history are returned unchanged (the code
performs no move and no write on this path). -/
theorem undo_nothing_to_undo (fs : Fs) (h : List Batch)
    (hall : ∀ b ∈ h, b.moves = []) :
    undo_last_batch fs h = (fs, h) := by
  unfold undo_last_batch
  rw [last_nonempty_batch_eq_none hall]

theorem undo_nothing_to_undo_witness :
    (∀ b ∈ ([⟨1, 0, []⟩, ⟨2, 5, []⟩] : List Batch), b.moves = []) ∧
    undo_last_batch (fun _ => none) [⟨1, 0, []⟩, ⟨2, 5, []⟩] =
      ((fun _ => none), [⟨1, 0, []⟩, ⟨2, 5, []⟩]) :=
  ⟨by decide, undo_nothing_to_undo (fun _ => none) _ (by decide)⟩

/-- C9.  `add_to_batch` called while the loaded history is empty leaves
the history empty: its `if history:` guard fails, the record is
silently dropped, and (since the function returns without calling
`save_history`) nothing is persisted. -/
theorem add_to_batch_empty_drops_record (src dst : String) :
    add_to_batch src dst [] = [] := rfl

/-- `List.find?` returns the unique element satisfying the test. -/
lemma find?_eq_some_of_unique {α : Type} (p : α → Bool) (x : α) :
    ∀ (l : List α), x ∈ l → p x = true → (∀ y ∈ l, p y = true → y = x) →
      l.find? p = some x
  | [], hx, _, _ => absurd hx (List.not_mem_nil x)
  | a :: l, hx, hpx, huniq => by
      cases hpa : p a with
      | true =>
          rw [List.find?_cons_of_pos _ hpa]
          exact congrArg some (huniq a (List.mem_cons_self a l) hpa)
      | false =>
          rw [List.find?_cons_of_neg _ (by simp [hpa])]
          have hx' : x ∈ l := by
            rcases List.mem_cons.mp hx with h | h
            · rw [h] at hpx; rw [hpx] at hpa; exact absurd hpa (by simp)
            · exact h
          exact find?_eq_some_of_unique p x l hx' hpx
            (fun y hy => huniq y (List.mem_cons_of_mem a hy))

/-- Across the concrete `CATEGORIES` table, extension lists are
pairwise disjoint: an extension determines its row. -/
lemma categories_ext_unique :
    ∀ p ∈ CATEGORIES, ∀ q ∈ CATEGORIES, ∀ e ∈ p.2, e ∈ q.2 → p = q := by
  decide

/-- No `CATEGORIES` row contains the empty extension. -/
lemma categories_no_empty_ext : ∀ p ∈ CATEGORIES, "" ∉ p.2 := by decide

/-- C6.  `get_category` is a total function of the filename string:
(i) a name with no extension classifies as "其他";
(ii) a lower-cased suffix absent from every extension list classifies
as "其他"; (iii) a lower-cased suffix present in a category's extension
list — so matching is case-insensitive — classifies as that category;
(iv) the result depends only on the suffix, hence is independent of any
keyword content of the filename. -/
theorem get_category_spec (filename : String) :
    (pySuffix filename = "" → get_category filename = "其他") ∧
    ((∀ p ∈ CATEGORIES, strLower (pySuffix filename) ∉ p.2) →
      get_category filename = "其他") ∧
    (∀ c exts, (c, exts) ∈ CATEGORIES → strLower (pySuffix filename) ∈ exts →
      get_category filename = c) ∧
    (∀ other : String, pySuffix other = pySuffix filename →
      get_category other = get_category filename) := by
  refine ⟨?_, ?_, ?_, ?_⟩
  · intro h
    unfold get_category
    rw [h]
    decide
  · intro h
    unfold get_category
    have : CATEGORIES.find?
        (fun ce => decide (strLower (pySuffix filename) ∈ ce.2)) = none :=
      List.find?_eq_none.mpr (fun p hp => by simpa using h p hp)
    rw [this]
  · intro c exts hmem hext
    unfold get_category
    have : CATEGORIES.find?
        (fun ce => decide (strLower (pySuffix filename) ∈ ce.2)) =
          some (c, exts) :=
      find?_eq_some_of_unique _ _ _ hmem (by simpa using hext)
        (fun y hy hpy =>
          categories_ext_unique y hy (c, exts) hmem
            (strLower (pySuffix filename)) (by simpa using hpy) hext)
    rw [this]
  · intro other h
    unfold get_category
    rw [h]

theorem get_category_spec_witness :
    ((("PDF文档", [".pdf"]) ∈ CATEGORIES ∧
        strLower (pySuffix "Report.PDF") ∈ [".pdf"]) ∧
      get_category "Report.PDF" = "PDF文档") ∧
    (pySuffix "no_extension" = "" ∧ get_category "no_extension" = "其他") :=
  ⟨⟨⟨by decide, by decide⟩,
      (get_category_spec "Report.PDF").2.2.1 "PDF文档" [".pdf"]
        (by decide) (by decide)⟩,
    ⟨by decide, (get_category_spec "no_extension").1 (by decide)⟩⟩

/-- Across the concrete `SMART_RULES` table, category keys are unique:
a key determines its row. -/
lemma smart_rules_key_unique :
    ∀ p ∈ SMART_RULES, ∀ q ∈ SMART_RULES, p.1 = q.1 → p = q := by decide

lemma scanRules_eq_none (fl : String) :
    ∀ (rules : List (List String × String)),
      (∀ r ∈ rules, ruleHit fl r = false) → scanRules fl rules = none
  | [], _ => rfl
  | rule :: rest, hall => by
      unfold scanRules
      rw [hall rule (List.mem_cons_self rule rest)]
      simp only [Bool.false_eq_true, if_false]
      exact scanRules_eq_none fl rest
        (fun r hr => hall r (List.mem_cons_of_mem rule hr))

lemma scanRules_first_hit (fl : String) (r : List String × String)
    (post : List (List String × String)) :
    ∀ (pre : List (List String × String)), ruleHit fl r = true →
      (∀ r' ∈ pre, ruleHit fl r' = false) →
      scanRules fl (pre ++ r :: post) = some r.2
  | [], hr, _ => by
      unfold scanRules
      rw [List.nil_append]
      simp [hr]
  | x :: pre, hr, hpre => by
      rw [List.cons_append]
      unfold scanRules
      rw [hpre x (List.mem_cons_self x pre)]
      simp only [Bool.false_eq_true, if_false]
      exact scanRules_first_hit fl r post pre hr
        (fun r' hr' => hpre r' (List.mem_cons_of_mem x hr'))

/-- C7.  `get_smart_subcategory`: (i) a category with no rule list in
`SMART_RULES` yields no subcategory; for a category with rule list
`rules`, (ii) if no rule's keyword occurs (case-insensitively, as a
substring anywhere) in the filename the result is `none`, and (iii) if
a rule matches, the first matching rule in declaration order supplies
the subcategory. -/
theorem get_smart_subcategory_spec (filename category : String) :
    ((∀ e ∈ SMART_RULES, e.1 ≠ category) →
      get_smart_subcategory filename category = none) ∧
    (∀ rules, (category, rules) ∈ SMART_RULES →
      ((∀ r ∈ rules, ruleHit (strLower filename) r = false) →
        get_smart_subcategory filename category = none) ∧
      (∀ pre r post, rules = pre ++ r :: post →
        ruleHit (strLower filename) r = true →
        (∀ r' ∈ pre, ruleHit (strLower filename) r' = false) →
        get_smart_subcategory filename category = some r.2)) := by
  constructor
  · intro h
    unfold get_smart_subcategory
    have : SMART_RULES.find? (fun e => decide (e.1 = category)) = none :=
      List.find?_eq_none.mpr (fun e he => by simpa using h e he)
    rw [this]
  · intro rules hmem
    have hfind : SMART_RULES.find? (fun e => decide (e.1 = category)) =
        some (category, rules) :=
      find?_eq_some_of_unique _ _ _ hmem (by simp)
        (fun y hy hpy =>
          smart_rules_key_unique y hy (category, rules) hmem (by simpa using hpy))
    constructor
    · intro hall
      unfold get_smart_subcategory
      rw [hfind]
      exact scanRules_eq_none _ rules hall
    · intro pre r post hsplit hr hpre
      unfold get_smart_subcategory
      rw [hfind, hsplit]
      exact scanRules_first_hit _ r post pre hr hpre

theorem get_smart_subcategory_spec_witness :
    (("PDF文档",
        [ (["论文", "paper", "research", "study", "journal", "review"], "论文"),
          (["arxiv", "ieee", "acm", "springer", "elsevier", "s2.0-", "1-s2.0"], "论文"),
          (["摘要", "abstract", "introduction", "conclusion"], "论文"),
          (["发票", "invoice", "receipt", "账单", "bill"], "发票"),
          (["合同", "contract", "agreement", "协议"], "合同"),
          (["简历", "resume", "cv", "curriculum"], "简历"),
          (["报告", "report", "汇报", "总结"], "报告"),
          (["手册", "manual", "guide", "教程", "tutorial"], "手册") ]) ∈ SMART_RULES) ∧
    ruleHit (strLower "My_PAPER_final.pdf")
      (["论文", "paper", "research", "study", "journal", "review"], "论文") = true ∧
    get_smart_subcategory "My_PAPER_final.pdf" "PDF文档" = some "论文" := by
  refine ⟨by decide, by decide, ?_⟩
  exact (get_smart_subcategory_spec "My_PAPER_final.pdf" "PDF文档").2 _
    (by decide) |>.2 []
    (["论文", "paper", "research", "study", "journal", "review"], "论文")
    [ (["arxiv", "ieee", "acm", "springer", "elsevier", "s2.0-", "1-s2.0"], "论文"),
      (["摘要", "abstract", "introduction", "conclusion"], "论文"),
      (["发票", "invoice", "receipt", "账单", "bill"], "发票"),
      (["合同", "contract", "agreement", "协议"], "合同"),
      (["简历", "resume", "cv", "curriculum"], "简历"),
      (["报告", "report", "汇报", "总结"], "报告"),
      (["手册", "manual", "guide", "教程", "tutorial"], "手册") ]
    rfl (by decide) (by simp)

lemma plannedName_zero (parent base ext : String) :
    plannedName parent base ext 0 = joinPath parent (base ++ ext) := rfl

lemma plannedName_succ (parent base ext : String) (k : Nat) :
    plannedName parent base ext (k + 1) = numberedCand parent base ext (k + 1) :=
  rfl

/-- The collision loop returns the first free numbered candidate: if the
candidates at `counter + 0 … counter + (k-1)` all exist and the one at
`counter + k` does not, and the fuel covers `k` steps, the loop answers
`counter + k`. -/
lemma findUniqueName_spec (fs : List String) (parent base ext : String) :
    ∀ (k counter fuel : Nat), k < fuel →
      (∀ j, j < k → numberedCand parent base ext (counter + j) ∈ fs) →
      numberedCand parent base ext (counter + k) ∉ fs →
      findUniqueName fs parent base ext fuel counter =
        numberedCand parent base ext (counter + k) := by
  intro k
  induction k with
  | zero =>
      intro counter fuel hk hin hfree
      match fuel, hk with
      | f + 1, _ =>
        unfold findUniqueName
        rw [Nat.add_zero] at hfree
        simp [hfree]
  | succ k ih =>
      intro counter fuel hk hin hfree
      match fuel, hk with
      | f + 1, hk =>
        unfold findUniqueName
        have h0 : numberedCand parent base ext counter ∈ fs := by
          have := hin 0 (Nat.succ_pos k)
          rwa [Nat.add_zero] at this
        simp only [h0, if_pos]
        have harith : counter + 1 + k = counter + (k + 1) := by omega
        rw [ih (counter + 1) f (by omega)
          (fun j hj => by
            have := hin (j + 1) (by omega)
            rwa [show counter + (j + 1) = counter + 1 + j by omega] at this)
          (by rwa [harith]), harith]

/-- After `m` same-named files have been planned and moved (their
destinations `plannedName 0 … plannedName (m-1)` now exist),
`get_unique_path` hands file `m` the destination `plannedName m`. -/
lemma get_unique_path_stage (parent base ext : String) (fs₀ : List String)
    (N : Nat)
    (h1 : ∀ k, k < N → plannedName parent base ext k ∉ fs₀)
    (h2 : ∀ i, i < N → ∀ j, j < N → i ≠ j →
      plannedName parent base ext i ≠ plannedName parent base ext j) :
    ∀ m, m < N →
      get_unique_path
        (((List.range m).map (plannedName parent base ext)).reverse ++ fs₀)
        parent base ext = plannedName parent base ext m := by
  intro m hm
  have hmem : ∀ x, x ∈ ((List.range m).map (plannedName parent base ext)).reverse ++ fs₀ ↔
      ((∃ j, j < m ∧ plannedName parent base ext j = x) ∨ x ∈ fs₀) := by
    intro x
    simp [List.mem_append, List.mem_reverse, List.mem_map, List.mem_range]
  cases m with
  | zero =>
      unfold get_unique_path
      rw [if_neg]
      · exact (plannedName_zero parent base ext).symm
      · intro hx
        exact h1 0 hm (by
          rw [plannedName_zero parent base ext]
          simpa using (hmem _).mp hx)
  | succ m' =>
      unfold get_unique_path
      rw [if_pos]
      · rw [findUniqueName_spec _ parent base ext m' 1 _
          (by
            simp only [List.length_append, List.length_reverse, List.length_map,
              List.length_range]
            omega)
          (fun j hj =>
            (hmem _).mpr (Or.inl ⟨1 + j, by omega, by
              rw [show 1 + j = j + 1 by omega, plannedName_succ]⟩))
          (by
            intro hx
            rcases (hmem _).mp hx with ⟨j, hj, hEq⟩ | hx0
            · exact h2 j (by omega) (m' + 1) hm (by omega)
                (by rwa [show 1 + m' = m' + 1 by omega, ← plannedName_succ] at hEq)
            · exact h1 (m' + 1) hm (by
                rwa [show 1 + m' = m' + 1 by omega, ← plannedName_succ] at hx0))]
        rw [show 1 + m' = m' + 1 by omega, ← plannedName_succ]
      · exact (hmem _).mpr
          (Or.inl ⟨0, by omega, plannedName_zero parent base ext⟩)

/-- Planning `r` more same-named files, each move landing before the
next plan, from the state where `m` are already placed, yields exactly
`plannedName m, …, plannedName (m+r-1)`. -/
lemma plan_exec_stage (parent base ext : String) (fs₀ : List String) (N : Nat)
    (h1 : ∀ k, k < N → plannedName parent base ext k ∉ fs₀)
    (h2 : ∀ i, i < N → ∀ j, j < N → i ≠ j →
      plannedName parent base ext i ≠ plannedName parent base ext j) :
    ∀ (r m : Nat), m + r ≤ N →
      plan_exec
        (((List.range m).map (plannedName parent base ext)).reverse ++ fs₀)
        (List.replicate r (parent, base, ext)) =
      (List.range' m r).map (plannedName parent base ext) := by
  intro r
  induction r with
  | zero => intro m _; rfl
  | succ r ih =>
      intro m hm
      rw [List.replicate_succ]
      simp only [plan_exec]
      rw [get_unique_path_stage parent base ext fs₀ N h1 h2 m (by omega)]
      have hstep : plannedName parent base ext m ::
          (((List.range m).map (plannedName parent base ext)).reverse ++ fs₀) =
          ((List.range (m + 1)).map (plannedName parent base ext)).reverse ++ fs₀ := by
        rw [List.range_succ, List.map_append, List.reverse_append]
        simp
      rw [hstep, ih (m + 1) (by omega), List.range'_succ, List.map_cons]

/-- C2 (counterexample).  One planning pass with no executions in
between: two source files both named `invoice.pdf` aimed at the same
empty target folder `T` are both planned to the bare path
`T/invoice.pdf` — `get_unique_path` consults only the live filesystem,
so the planned destinations are not pairwise distinct and the second
file does not receive the `_1` suffix. -/
theorem plan_pass_reuses_slot :
    plan_pass [] [("T", "invoice", ".pdf"), ("T", "invoice", ".pdf")] =
      ["T/invoice.pdf", "T/invoice.pdf"] ∧
    ¬ (plan_pass []
        [("T", "invoice", ".pdf"), ("T", "invoice", ".pdf")]).Pairwise (· ≠ ·) := by
  refine ⟨rfl, fun h => ?_⟩
  rw [show plan_pass [] [("T", "invoice", ".pdf"), ("T", "invoice", ".pdf")] =
      ["T/invoice.pdf", "T/invoice.pdf"] from rfl] at h
  exact (List.pairwise_cons.mp h).1 "T/invoice.pdf" (by simp) rfl

/-- C2 (amended).  When each planned move is executed (its destination
created) before the next file is planned — the watcher flow — `N`
source files sharing a name receive the pairwise-distinct destinations
bare, `_1`, …, `_(N-1)`, provided none of those `N` candidate paths
already exists and the candidate names are pairwise distinct strings.
In a single scan/plan pass with no executions in between this fails
(see the counterexample): all `N` files are planned to the bare path. -/
theorem plan_exec_unique_names (parent base ext : String) (fs₀ : List String)
    (N : Nat)
    (h1 : ∀ k, k < N → plannedName parent base ext k ∉ fs₀)
    (h2 : ∀ i, i < N → ∀ j, j < N → i ≠ j →
      plannedName parent base ext i ≠ plannedName parent base ext j) :
    plan_exec fs₀ (List.replicate N (parent, base, ext)) =
      (List.range N).map (plannedName parent base ext) ∧
    ((List.range N).map (plannedName parent base ext)).Pairwise (· ≠ ·) := by
  constructor
  · have := plan_exec_stage parent base ext fs₀ N h1 h2 N 0 (by omega)
    simpa [List.range_eq_range'] using this
  · rw [List.pairwise_map]
    exact (List.pairwise_lt_range N).imp_of_mem
      (fun ha hb hlt => h2 _ (List.mem_range.mp ha) _ (List.mem_range.mp hb)
        (Nat.ne_of_lt hlt))

theorem plan_exec_unique_names_witness :
    (∀ k, k < 3 → plannedName "T" "invoice" ".pdf" k ∉ ([] : List String)) ∧
    (∀ i, i < 3 → ∀ j, j < 3 → i ≠ j →
      plannedName "T" "invoice" ".pdf" i ≠ plannedName "T" "invoice" ".pdf" j) ∧
    (plan_exec [] (List.replicate 3 ("T", "invoice", ".pdf")) =
        (List.range 3).map (plannedName "T" "invoice" ".pdf") ∧
      ((List.range 3).map (plannedName "T" "invoice" ".pdf")).Pairwise (· ≠ ·)) :=
  ⟨by decide, by decide,
    plan_exec_unique_names "T" "invoice" ".pdf" [] 3 (by decide) (by decide)⟩

/-- Shared shape of the execute and undo per-file loops: rename `ab.1`
to `ab.2` when `ab.1` exists, skip otherwise.  The execute loop is this
with `(source, dest)` pairs, the undo loop with `(dest, source)`. -/
def transfer (fs : Fs) (ab : String × String) : Fs :=
  match fs ab.1 with
  | some _ => moveFile fs ab.1 ab.2
  | none => fs

/-- Fold `transfer` over a list of renames. -/
def transferAll (fs : Fs) (steps : List (String × String)) : Fs :=
  steps.foldl transfer fs

lemma transferAll_frame :
    ∀ (steps : List (String × String)) (fs : Fs) (p : String),
      p ∉ steps.map Prod.fst → p ∉ steps.map Prod.snd →
      transferAll fs steps p = fs p
  | [], _, _, _, _ => rfl
  | (a, b) :: steps, fs, p, hf, hs => by
      have hpa : p ≠ a := fun hEq => hf (by simp [hEq])
      have hpb : p ≠ b := fun hEq => hs (by simp [hEq])
      have hstep : transfer fs (a, b) p = fs p := by
        unfold transfer
        cases fs a with
        | none => rfl
        | some v => simp [moveFile, hpa, hpb]
      have htail := transferAll_frame steps (transfer fs (a, b)) p
        (fun hEq => hf (List.mem_cons_of_mem _ hEq))
        (fun hEq => hs (List.mem_cons_of_mem _ hEq))
      calc transferAll fs ((a, b) :: steps) p
          = transferAll (transfer fs (a, b)) steps p := rfl
        _ = transfer fs (a, b) p := htail
        _ = fs p := hstep

/-- Under distinct origins, distinct targets, origin/target
disjointness and existing origins, a rename chain leaves every target
holding exactly what its origin held. -/
lemma transferAll_moved :
    ∀ (steps : List (String × String)) (fs : Fs),
      (steps.map Prod.fst).Nodup → (steps.map Prod.snd).Nodup →
      (∀ x ∈ steps.map Prod.fst, ∀ y ∈ steps.map Prod.snd, x ≠ y) →
      (∀ ab ∈ steps, fs ab.1 ≠ none) →
      ∀ ab ∈ steps, transferAll fs steps ab.2 = fs ab.1
  | [], _, _, _, _, _, _, hab => absurd hab (List.not_mem_nil _)
  | (a, b) :: steps, fs, hf, hs, hdisj, hex, ab, hab => by
      obtain ⟨v, hv⟩ := Option.ne_none_iff_exists'.mp
        (hex (a, b) (List.mem_cons_self _ _))
      have hstep : transfer fs (a, b) = moveFile fs a b := by
        unfold transfer
        rw [hv]
      have hanotin : a ∉ steps.map Prod.fst := (List.nodup_cons.mp hf).1
      have hbnotin : b ∉ steps.map Prod.snd := (List.nodup_cons.mp hs).1
      have hab' : a ≠ b :=
        hdisj a (List.mem_cons_self _ _) b (List.mem_cons_self _ _)
      have hkeep : ∀ cd ∈ steps, moveFile fs a b cd.1 = fs cd.1 := by
        intro cd hcd
        have hc1 : cd.1 ≠ b := hdisj cd.1
          (List.mem_cons_of_mem _ (List.mem_map_of_mem Prod.fst hcd)) b
          (List.mem_cons_self _ _)
        have hc2 : cd.1 ≠ a := fun hEq =>
          hanotin (hEq ▸ List.mem_map_of_mem Prod.fst hcd)
        simp [moveFile, hc1, hc2]
      rcases List.mem_cons.mp hab with hEq | hmem
      · subst hEq
        have hbf : b ∉ steps.map Prod.fst := by
          intro hEq
          exact hdisj b (List.mem_cons_of_mem _ hEq) b
            (List.mem_cons_self _ _) rfl
        calc transferAll fs ((a, b) :: steps) b
            = transferAll (moveFile fs a b) steps b := by
              rw [show transferAll fs ((a, b) :: steps) =
                transferAll (transfer fs (a, b)) steps from rfl, hstep]
          _ = moveFile fs a b b := transferAll_frame steps _ b hbf hbnotin
          _ = fs a := by simp [moveFile]
      · have hex' : ∀ cd ∈ steps, moveFile fs a b cd.1 ≠ none := by
          intro cd hcd
          rw [hkeep cd hcd]
          exact hex cd (List.mem_cons_of_mem _ hcd)
        have := transferAll_moved steps (moveFile fs a b)
          (List.nodup_cons.mp hf).2 (List.nodup_cons.mp hs).2
          (fun x hx y hy => hdisj x (List.mem_cons_of_mem _ hx) y
            (List.mem_cons_of_mem _ hy))
          hex' ab hmem
        calc transferAll fs ((a, b) :: steps) ab.2
            = transferAll (moveFile fs a b) steps ab.2 := by
              rw [show transferAll fs ((a, b) :: steps) =
                transferAll (transfer fs (a, b)) steps from rfl, hstep]
          _ = moveFile fs a b ab.1 := this
          _ = fs ab.1 := hkeep ab hmem

/-- The execution loop with every move succeeding: the filesystem
effect is the rename chain over the `(source, dest)` pairs, and the
history's final batch collects exactly the executed records. -/
lemma exec_all_success :
    ∀ (ms : List MoveRecord) (fs : Fs) (hp : List Batch) (b : Batch),
      (∀ m ∈ ms, fs m.source ≠ none) →
      (ms.map MoveRecord.source).Nodup →
      (ms.map MoveRecord.dest).Nodup →
      (∀ x ∈ ms.map MoveRecord.source, ∀ y ∈ ms.map MoveRecord.dest, x ≠ y) →
      ms.foldl execMove (fs, hp ++ [b]) =
        (transferAll fs (ms.map (fun m => (m.source, m.dest))),
          hp ++ [{ b with moves := b.moves ++ ms }])
  | [], fs, hp, b, _, _, _, _ => by simp [transferAll]
  | m :: ms, fs, hp, b, hex, hf, hs, hdisj => by
      obtain ⟨v, hv⟩ := Option.ne_none_iff_exists'.mp
        (hex m (List.mem_cons_self _ _))
      rw [List.foldl_cons]
      have hstep : execMove (fs, hp ++ [b]) m =
          (moveFile fs m.source m.dest,
            hp ++ [{ b with moves := b.moves ++ [⟨m.source, m.dest⟩] }]) := by
        simp only [execMove, hv, add_to_batch_concat]
      rw [hstep]
      have hkeep : ∀ m' ∈ ms, moveFile fs m.source m.dest m'.source = fs m'.source := by
        intro m' hm'
        have hc1 : m'.source ≠ m.dest := hdisj m'.source
          (List.mem_cons_of_mem _ (List.mem_map_of_mem MoveRecord.source hm'))
          m.dest (List.mem_cons_self _ _)
        have hc2 : m'.source ≠ m.source := fun hEq =>
          (List.nodup_cons.mp hf).1
            (hEq ▸ List.mem_map_of_mem MoveRecord.source hm')
        simp [moveFile, hc1, hc2]
      have hex' : ∀ m' ∈ ms, moveFile fs m.source m.dest m'.source ≠ none := by
        intro m' hm'
        rw [hkeep m' hm']
        exact hex m' (List.mem_cons_of_mem _ hm')
      rw [exec_all_success ms (moveFile fs m.source m.dest) hp
        { b with moves := b.moves ++ [⟨m.source, m.dest⟩] } hex'
        (List.nodup_cons.mp hf).2 (List.nodup_cons.mp hs).2
        (fun x hx y hy => hdisj x (List.mem_cons_of_mem _ hx) y
          (List.mem_cons_of_mem _ hy))]
      have hchain : transferAll fs (List.map (fun m => (m.source, m.dest)) (m :: ms)) =
          transferAll (moveFile fs m.source m.dest)
            (List.map (fun m => (m.source, m.dest)) ms) := by
        rw [List.map_cons]
        show transferAll (transfer fs (m.source, m.dest)) _ =
          transferAll (moveFile fs m.source m.dest) _
        have : transfer fs (m.source, m.dest) = moveFile fs m.source m.dest := by
          unfold transfer
          rw [hv]
        rw [this]
      rw [hchain, List.append_cons b.moves _ ms]

/-- The undo loop is the rename chain over `(dest, source)` pairs. -/
lemma undo_foldl_eq_transferAll :
    ∀ (ms : List MoveRecord) (fs : Fs),
      ms.foldl undoMove fs = transferAll fs (ms.map (fun m => (m.dest, m.source)))
  | [], _ => rfl
  | m :: ms, fs => by
      rw [List.foldl_cons, List.map_cons]
      show ms.foldl undoMove (undoMove fs m) =
        transferAll (transfer fs (m.dest, m.source)) _
      rw [show undoMove fs m = transfer fs (m.dest, m.source) from rfl]
      exact undo_foldl_eq_transferAll ms _

lemma last_nonempty_batch_concat (h : List Batch) (b : Batch) :
    last_nonempty_batch (h ++ [b]) =
      if b.moves.isEmpty then last_nonempty_batch h else some b := by
  induction h with
  | nil => cases hb : b.moves.isEmpty <;> simp [last_nonempty_batch, hb]
  | cons x xs ih =>
      rw [List.cons_append]
      unfold last_nonempty_batch
      rw [ih]
      cases hb : b.moves.isEmpty with
      | true => simp only [if_true]
      | false => simp

lemma filter_ne_id_eq_self {h : List Batch} {n : Nat}
    (hid : ∀ x ∈ h, x.batch_id ≠ n) :
    h.filter (fun b => b.batch_id ≠ n) = h :=
  List.filter_eq_self.mpr (fun b hb => by simpa using hid b hb)

/-- C4 (counterexample).  The empty set of planned moves executes
"successfully" (vacuously), creating empty batch 1; the immediate undo
then finds no non-empty batch and removes nothing, so the batch created
by the execution is *not* removed and the history batch count (1)
differs from the count before the execution (0). -/
theorem execute_empty_then_undo_keeps_batch :
    (undo_last_batch
        (organize_files_execute (fun _ => none) [] 0 []).1
        (organize_files_execute (fun _ => none) [] 0 []).2).2 = [⟨1, 0, []⟩] ∧
    (undo_last_batch
        (organize_files_execute (fun _ => none) [] 0 []).1
        (organize_files_execute (fun _ => none) [] 0 []).2).2.length ≠
      ([] : List Batch).length := by
  exact ⟨rfl, by decide⟩

/-- C4 (amended).  For every *non-empty* set of planned moves with
pairwise-distinct sources, pairwise-distinct destinations, no
destination equal to a source, all sources present on disk, and a
history obeying the documented increasing-id invariant (no existing
batch already carries the next id): executing the moves and immediately
undoing restores every moved file's content at its original source
path, removes exactly the batch created by the execution (the history
is back to its pre-execution value), and the history batch count equals
the count before the execution. -/
theorem execute_then_undo_roundtrip (fs : Fs) (h : List Batch) (now : Int)
    (ms : List MoveRecord)
    (hne : ms ≠ [])
    (hsrc : (ms.map MoveRecord.source).Nodup)
    (hdst : (ms.map MoveRecord.dest).Nodup)
    (hdisj : ∀ x ∈ ms.map MoveRecord.source, ∀ y ∈ ms.map MoveRecord.dest, x ≠ y)
    (hex : ∀ m ∈ ms, fs m.source ≠ none)
    (hid : ∀ b ∈ h, b.batch_id ≠ lastBatchId h + 1) :
    (∀ m ∈ ms,
      (undo_last_batch (organize_files_execute fs h now ms).1
        (organize_files_execute fs h now ms).2).1 m.source = fs m.source) ∧
    (undo_last_batch (organize_files_execute fs h now ms).1
      (organize_files_execute fs h now ms).2).2 = h ∧
    (undo_last_batch (organize_files_execute fs h now ms).1
      (organize_files_execute fs h now ms).2).2.length = h.length := by
  have hexec : organize_files_execute fs h now ms =
      (transferAll fs (ms.map (fun m => (m.source, m.dest))),
        h ++ [⟨lastBatchId h + 1, now, ms⟩]) := by
    unfold organize_files_execute start_new_batch
    rw [exec_all_success ms fs h ⟨lastBatchId h + 1, now, []⟩ hex hsrc hdst hdisj]
    simp
  have hemp : (⟨lastBatchId h + 1, now, ms⟩ : Batch).moves.isEmpty = false := by
    cases ms with
    | nil => exact absurd rfl hne
    | cons a l => rfl
  have hsel : last_nonempty_batch (h ++ [⟨lastBatchId h + 1, now, ms⟩]) =
      some ⟨lastBatchId h + 1, now, ms⟩ := by
    rw [last_nonempty_batch_concat, hemp]
    simp
  have hundo : undo_last_batch
      (transferAll fs (ms.map (fun m => (m.source, m.dest))))
      (h ++ [⟨lastBatchId h + 1, now, ms⟩]) =
      (transferAll (transferAll fs (ms.map (fun m => (m.source, m.dest))))
        (ms.map (fun m => (m.dest, m.source))),
        h) := by
    unfold undo_last_batch
    rw [hsel]
    refine congrArg₂ Prod.mk (undo_foldl_eq_transferAll ms _) ?_
    rw [List.filter_append]
    have h2 : List.filter (fun b => decide (b.batch_id ≠ lastBatchId h + 1))
        [(⟨lastBatchId h + 1, now, ms⟩ : Batch)] = [] := by
      simp
    show List.filter _ h ++ List.filter _ [(⟨lastBatchId h + 1, now, ms⟩ : Batch)] = h
    rw [h2, List.append_nil, filter_ne_id_eq_self hid]
  have hSf : (ms.map (fun m => (m.source, m.dest))).map Prod.fst =
      ms.map MoveRecord.source := by
    rw [List.map_map]
    rfl
  have hSs : (ms.map (fun m => (m.source, m.dest))).map Prod.snd =
      ms.map MoveRecord.dest := by
    rw [List.map_map]
    rfl
  have hTf : (ms.map (fun m => (m.dest, m.source))).map Prod.fst =
      ms.map MoveRecord.dest := by
    rw [List.map_map]
    rfl
  have hTs : (ms.map (fun m => (m.dest, m.source))).map Prod.snd =
      ms.map MoveRecord.source := by
    rw [List.map_map]
    rfl
  have hmoved : ∀ m ∈ ms,
      transferAll fs (ms.map (fun m => (m.source, m.dest))) m.dest = fs m.source := by
    intro m hm
    exact transferAll_moved (ms.map (fun m => (m.source, m.dest))) fs
      (hSf ▸ hsrc) (hSs ▸ hdst)
      (fun x hx y hy => hdisj x (hSf ▸ hx) y (hSs ▸ hy))
      (fun ab hab => by
        obtain ⟨m', hm', hEq⟩ := List.mem_map.mp hab
        rw [← hEq]
        exact hex m' hm')
      (m.source, m.dest) (List.mem_map_of_mem _ hm)
  have hback : ∀ m ∈ ms,
      transferAll (transferAll fs (ms.map (fun m => (m.source, m.dest))))
        (ms.map (fun m => (m.dest, m.source))) m.source = fs m.source := by
    intro m hm
    have := transferAll_moved (ms.map (fun m => (m.dest, m.source)))
      (transferAll fs (ms.map (fun m => (m.source, m.dest))))
      (hTf ▸ hdst) (hTs ▸ hsrc)
      (fun x hx y hy => (hdisj y (hTs ▸ hy) x (hTf ▸ hx)).symm)
      (fun ab hab => by
        obtain ⟨m', hm', hEq⟩ := List.mem_map.mp hab
        rw [← hEq]
        show transferAll fs (ms.map (fun m => (m.source, m.dest))) m'.dest ≠ none
        rw [hmoved m' hm']
        exact hex m' hm')
      (m.dest, m.source) (List.mem_map_of_mem _ hm)
    rw [this]
    exact hmoved m hm
  rw [hexec]
  simp only [hundo]
  exact ⟨hback, trivial, trivial⟩

theorem execute_then_undo_roundtrip_witness :
    (([⟨"a", "T/a"⟩] : List MoveRecord) ≠ []) ∧
    (([⟨"a", "T/a"⟩] : List MoveRecord).map MoveRecord.source).Nodup ∧
    (([⟨"a", "T/a"⟩] : List MoveRecord).map MoveRecord.dest).Nodup ∧
    (∀ x ∈ ([⟨"a", "T/a"⟩] : List MoveRecord).map MoveRecord.source,
      ∀ y ∈ ([⟨"a", "T/a"⟩] : List MoveRecord).map MoveRecord.dest, x ≠ y) ∧
    (∀ m ∈ ([⟨"a", "T/a"⟩] : List MoveRecord),
      (fun p => if p = "a" then some 0 else none : Fs) m.source ≠ none) ∧
    (∀ b ∈ ([] : List Batch), b.batch_id ≠ lastBatchId [] + 1) ∧
    ((∀ m ∈ ([⟨"a", "T/a"⟩] : List MoveRecord),
      (undo_last_batch
        (organize_files_execute (fun p => if p = "a" then some 0 else none)
          [] 0 [⟨"a", "T/a"⟩]).1
        (organize_files_execute (fun p => if p = "a" then some 0 else none)
          [] 0 [⟨"a", "T/a"⟩]).2).1 m.source =
        (fun p => if p = "a" then some 0 else none : Fs) m.source) ∧
    (undo_last_batch
      (organize_files_execute (fun p => if p = "a" then some 0 else none)
        [] 0 [⟨"a", "T/a"⟩]).1
      (organize_files_execute (fun p => if p = "a" then some 0 else none)
        [] 0 [⟨"a", "T/a"⟩]).2).2 = [] ∧
    (undo_last_batch
      (organize_files_execute (fun p => if p = "a" then some 0 else none)
        [] 0 [⟨"a", "T/a"⟩]).1
      (organize_files_execute (fun p => if p = "a" then some 0 else none)
        [] 0 [⟨"a", "T/a"⟩]).2).2.length = ([] : List Batch).length) :=
  ⟨by decide, by decide, by decide, by decide, by decide, by decide,
    execute_then_undo_roundtrip (fun p => if p = "a" then some 0 else none)
      [] 0 [⟨"a", "T/a"⟩] (by decide) (by decide) (by decide) (by decide)
      (by decide) (by decide)⟩

/-- C10.  A file sitting directly inside the target root — exactly one
path component below it — is never reported as already organized by
`is_in_organized_folder`, whatever its name is (in particular even when
the name equals a classification-category name), because its relative
path has only one component and the `len(rel.parts) > 1` test fails. -/
theorem top_level_file_not_organized (root : List String) (name : String) :
    is_in_organized_folder (root ++ [name]) root = false := by
  unfold is_in_organized_folder relative_to
  rw [isPrefixOf_append_self]
  simp only [if_true]
  rw [List.drop_left]
  simp

end Organizer
